import Mathlib

/-!
Verification of the `FileHasher` component (`src/grc/file_service/hasher.py`).

The component computes SHA256 digests of byte buffers, files, and seekable
streams. Bytes are modelled as natural numbers below 256; byte buffers as
`List Nat`. The SHA256 primitive supplied by Python's `hashlib` is modelled
executably and in full (padding, message schedule, compression), so that
concrete digests such as the empty-input digest can be established by kernel
evaluation.
-/

/-- 32-bit truncation. -/
def w32 (n : Nat) : Nat := n % 4294967296

/-- Right rotation of a 32-bit word by `n` bits (`x` assumed below `2^32`). -/
def rotr (x n : Nat) : Nat := w32 ((x >>> n) ||| (x <<< (32 - n)))

def bsig0 (x : Nat) : Nat := (rotr x 2) ^^^ (rotr x 13) ^^^ (rotr x 22)

def bsig1 (x : Nat) : Nat := (rotr x 6) ^^^ (rotr x 11) ^^^ (rotr x 25)

def ssig0 (x : Nat) : Nat := (rotr x 7) ^^^ (rotr x 18) ^^^ (x >>> 3)

def ssig1 (x : Nat) : Nat := (rotr x 17) ^^^ (rotr x 19) ^^^ (x >>> 10)

def chF (x y z : Nat) : Nat := (x &&& y) ^^^ ((4294967295 - x) &&& z)

def majF (x y z : Nat) : Nat := (x &&& y) ^^^ (x &&& z) ^^^ (y &&& z)

/-- The 64 SHA256 round constants. -/
def K256 : List Nat :=
  [1116352408, 1899447441, 3049323471, 3921009573, 961987163,
   1508970993, 2453635748, 2870763221, 3624381080, 310598401,
   607225278, 1426881987, 1925078388, 2162078206, 2614888103,
   3248222580, 3835390401, 4022224774, 264347078, 604807628,
   770255983, 1249150122, 1555081692, 1996064986, 2554220882,
   2821834349, 2952996808, 3210313671, 3336571891, 3584528711,
   113926993, 338241895, 666307205, 773529912, 1294757372,
   1396182291, 1695183700, 1986661051, 2177026350, 2456956037,
   2730485921, 2820302411, 3259730800, 3345764771, 3516065817,
   3600352804, 4094571909, 275423344, 430227734, 506948616,
   659060556, 883997877, 958139571, 1322822218, 1537002063,
   1747873779, 1955562222, 2024104815, 2227730452, 2361852424,
   2428436474, 2756734187, 3204031479, 3329325298]

/-- The eight 32-bit words of a SHA256 state. -/
structure Hash8 where
  a : Nat
  b : Nat
  c : Nat
  d : Nat
  e : Nat
  f : Nat
  g : Nat
  h : Nat
deriving Repr, DecidableEq

/-- The SHA256 initial state. -/
def H0 : Hash8 :=
  ⟨1779033703, 3144134277, 1013904242, 2773480762,
   1359893119, 2600822924, 528734635, 1541459225⟩

/-- One SHA256 compression round with round constant `k` and schedule word `w`. -/
def round1 (s : Hash8) (k w : Nat) : Hash8 :=
  let t1 := w32 (s.h + bsig1 s.e + chF s.e s.f s.g + k + w)
  let t2 := w32 (bsig0 s.a + majF s.a s.b s.c)
  ⟨w32 (t1 + t2), s.a, s.b, s.c, w32 (s.d + t1), s.e, s.f, s.g⟩

/-- Extend a 16-word block by `fuel` schedule words. -/
def extendW : Nat → List Nat → List Nat
  | 0, ws => ws
  | n + 1, ws =>
      let t := ws.length
      let w := w32 (ssig1 (ws.getD (t - 2) 0) + ws.getD (t - 7) 0 +
                    ssig0 (ws.getD (t - 15) 0) + ws.getD (t - 16) 0)
      extendW n (ws ++ [w])

/-- Compress one 16-word block into the running state. -/
def compressBlock (s : Hash8) (block : List Nat) : Hash8 :=
  let ws := extendW 48 block
  let t := (ws.zip K256).foldl (fun st p => round1 st p.2 p.1) s
  ⟨w32 (s.a + t.a), w32 (s.b + t.b), w32 (s.c + t.c), w32 (s.d + t.d),
   w32 (s.e + t.e), w32 (s.f + t.f), w32 (s.g + t.g), w32 (s.h + t.h)⟩

/-- Group a byte list into big-endian 32-bit words. -/
def bytesToWords : List Nat → List Nat
  | a :: b :: c :: d :: rest =>
      (a * 16777216 + b * 65536 + c * 256 + d) :: bytesToWords rest
  | _ => []

/-- Fold all 16-word blocks of a word list into the state. -/
def processBlocks (s : Hash8) : List Nat → Hash8
  | w0 :: w1 :: w2 :: w3 :: w4 :: w5 :: w6 :: w7 ::
    w8 :: w9 :: w10 :: w11 :: w12 :: w13 :: w14 :: w15 :: rest =>
      processBlocks
        (compressBlock s [w0, w1, w2, w3, w4, w5, w6, w7,
                          w8, w9, w10, w11, w12, w13, w14, w15]) rest
  | _ => s

/-- The eight big-endian bytes of the 64-bit value `n`. -/
def lenBytes (n : Nat) : List Nat :=
  [n >>> 56 % 256, n >>> 48 % 256, n >>> 40 % 256, n >>> 32 % 256,
   n >>> 24 % 256, n >>> 16 % 256, n >>> 8 % 256, n % 256]

/-- SHA256 padding: append `0x80`, zeros to 56 mod 64, then the bit length. -/
def padMessage (msg : List Nat) : List Nat :=
  let len := msg.length
  let zeros := (64 + 56 - ((len + 1) % 64)) % 64
  msg ++ [0x80] ++ List.replicate zeros 0 ++ lenBytes (len * 8)

/-- The SHA256 state reached after absorbing the whole message. -/
def sha256Words (msg : List Nat) : Hash8 :=
  processBlocks H0 (bytesToWords (padMessage msg))

/-- The lowercase hex character for a value below 16. -/
def hexDigitChar (n : Nat) : Char :=
  if n < 10 then Char.ofNat (48 + n) else Char.ofNat (87 + n)

/-- The `k` low hex digits of `w`, most significant first. -/
def toHexAux : Nat → Nat → List Char
  | 0, _ => []
  | k + 1, w => toHexAux k (w / 16) ++ [hexDigitChar (w % 16)]

/-- SHA256 digest of a byte list as a 64-character lowercase hex string. -/
def sha256Hex (msg : List Nat) : String :=
  let s := sha256Words msg
  String.mk (toHexAux 8 s.a ++ toHexAux 8 s.b ++ toHexAux 8 s.c ++
             toHexAux 8 s.d ++ toHexAux 8 s.e ++ toHexAux 8 s.f ++
             toHexAux 8 s.g ++ toHexAux 8 s.h)

/-- Model of a `hashlib.sha256` object. Semantically such an object is
characterized by the bytes fed to it so far: `update` appends to them and
`hexdigest` returns the SHA256 hex digest of their concatenation, which is
the documented behaviour of `hashlib` hash objects. -/
structure SHA256Ctx where
  fed : List Nat
deriving Repr, DecidableEq

/-- `hashlib.sha256()`: a fresh hash object with no bytes fed. -/
def SHA256Ctx.init : SHA256Ctx := ⟨[]⟩

/-- `obj.update(chunk)`. -/
def SHA256Ctx.update (ctx : SHA256Ctx) (chunk : List Nat) : SHA256Ctx :=
  ⟨ctx.fed ++ chunk⟩

/-- `obj.hexdigest()`. -/
def SHA256Ctx.hexdigest (ctx : SHA256Ctx) : String := sha256Hex ctx.fed

/-- Model of a seekable binary stream (a Python file-like object): its full
content, the current position, and an optional fault point. When
`failAt = some n`, any `read` issued while the position is at least `n`
raises; this models a stream whose reads start failing at some point, so
that the error paths of `hash_stream` are exercised. `failAt = none` is a
healthy stream. -/
structure ByteStream where
  data : List Nat
  pos : Nat
  failAt : Option Nat
deriving Repr, DecidableEq

/-- `stream.tell()`. -/
def ByteStream.tell (s : ByteStream) : Nat := s.pos

/-- `stream.seek(k)` (absolute). -/
def ByteStream.seek (s : ByteStream) (k : Nat) : ByteStream := { s with pos := k }

/-- `stream.read(k)`: return up to `k` bytes from the current position and
advance the position by the number of bytes returned; at or past
end-of-stream it returns the empty chunk. A faulty stream raises instead. -/
def ByteStream.read (s : ByteStream) (k : Nat) : Except String (List Nat × ByteStream) :=
  match s.failAt with
  | some n =>
      if n ≤ s.pos then Except.error "read failed"
      else
        let c := (s.data.drop s.pos).take k
        Except.ok (c, { s with pos := s.pos + c.length })
  | none =>
      let c := (s.data.drop s.pos).take k
      Except.ok (c, { s with pos := s.pos + c.length })

theorem read_ok_spec (s : ByteStream) (k : Nat) (c : List Nat) (t : ByteStream)
    (h : s.read k = Except.ok (c, t)) :
    c = (s.data.drop s.pos).take k ∧ t = { s with pos := s.pos + c.length } := by
  unfold ByteStream.read at h
  split at h
  · split at h
    · exact Except.noConfusion h
    · simp only [Except.ok.injEq, Prod.mk.injEq] at h
      obtain ⟨h1, h2⟩ := h
      subst h1
      exact ⟨rfl, h2.symm⟩
  · simp only [Except.ok.injEq, Prod.mk.injEq] at h
    obtain ⟨h1, h2⟩ := h
    subst h1
    exact ⟨rfl, h2.symm⟩

/-- The loop of `FileHasher._compute_hash` run against a `ByteStream`:
`for chunk in iter(lambda: file_obj.read(4096), b""): sha256_hash.update(chunk)`,
returning `hexdigest()` when a read yields the empty chunk and propagating a
read error otherwise. The result is paired with the stream object's final
state (Python mutates the stream in place, so the state survives an
exception) and, as instrumentation for cost claims, the number of `read`
calls performed. -/
def computeHashAux (s : ByteStream) (ctx : SHA256Ctx) (reads : Nat) :
    (Except String String × ByteStream) × Nat :=
  match h : s.read 4096 with
  | Except.error e => ((Except.error e, s), reads + 1)
  | Except.ok (c, t) =>
      if hc : c = [] then ((Except.ok ctx.hexdigest, t), reads + 1)
      else computeHashAux t (ctx.update c) (reads + 1)
termination_by s.data.length - s.pos
decreasing_by
  obtain ⟨h1, h2⟩ := read_ok_spec s 4096 c t h
  have hd : t.data = s.data := by rw [h2]
  have hp : t.pos = s.pos + c.length := by rw [h2]
  have hlen : c.length ≤ s.data.length - s.pos := by
    rw [h1]; simp [List.length_take, List.length_drop]
  have hpos : c.length ≠ 0 := fun hz => hc (List.length_eq_zero.mp hz)
  rw [hd, hp]; omega

/-- `FileHasher._compute_hash(file_obj)`: fresh SHA256 object, chunk loop,
hex digest. -/
def compute_hash (s : ByteStream) : Except String String × ByteStream :=
  (computeHashAux s SHA256Ctx.init 0).1

/-- `FileHasher.hash_bytes(data)`: `hashlib.sha256(data).hexdigest()`. -/
def hash_bytes (data : List Nat) : String :=
  (SHA256Ctx.init.update data).hexdigest

/-- `FileHasher.hash_stream(file_obj)`: record the position, seek to 0, run
`_compute_hash`, and in a `finally` block seek back to the recorded position —
on the success path and on the error path alike. The digest (or the
propagated error) is returned together with the stream's final state. -/
def hash_stream (s : ByteStream) : Except String String × ByteStream :=
  let current_position := s.tell
  let res := compute_hash (s.seek 0)
  (res.1, res.2.seek current_position)

/-- Outcome of `open(file_path, 'rb')` for a given path: the file's bytes,
a `FileNotFoundError`, or some other `OSError` (permission denied, device
error, ...). -/
inductive OpenOutcome where
  | found (content : List Nat)
  | fileNotFound
  | otherIOError (msg : String)
deriving Repr, DecidableEq

/-- Error taxonomy surfaced by the hasher: `NotFound` (Python
`FileNotFoundError`) versus a generic I/O failure (any other `OSError`). -/
inductive IOErr where
  | notFound (msg : String)
  | ioFailure (msg : String)
deriving Repr, DecidableEq

/-- `FileHasher.hash_file(file_path)`: open the path for binary reading,
run `_compute_hash` over a fresh handle (position 0, healthy), and translate
a `FileNotFoundError` into `FileNotFoundError(f"File not found: {file_path}")`;
any other I/O error propagates untranslated. `fs` maps each path to its
`open` outcome. -/
def hash_file (fs : String → OpenOutcome) (path : String) : Except IOErr String :=
  match fs path with
  | OpenOutcome.found content =>
      match (compute_hash ⟨content, 0, none⟩).1 with
      | Except.ok d => Except.ok d
      | Except.error m => Except.error (IOErr.ioFailure m)
  | OpenOutcome.fileNotFound =>
      Except.error (IOErr.notFound ("File not found: " ++ path))
  | OpenOutcome.otherIOError m => Except.error (IOErr.ioFailure m)

/-- The loop of `FileHasher._compute_hash` driven by a byte source that
yields the given chunks in order and then signals exhaustion with the empty
chunk; an empty chunk in the queue likewise stops the loop, since a
zero-length read is the end-of-source sentinel. -/
def computeHashChunks (ctx : SHA256Ctx) : List (List Nat) → String
  | [] => ctx.hexdigest
  | c :: rest =>
      if c = [] then ctx.hexdigest else computeHashChunks (ctx.update c) rest

/-! ### Unfolding lemmas for the chunk loop -/

theorem read_none (data : List Nat) (pos k : Nat) :
    ByteStream.read ⟨data, pos, none⟩ k =
      Except.ok ((data.drop pos).take k,
        ⟨data, pos + ((data.drop pos).take k).length, none⟩) := rfl

theorem computeHashAux_eq_error (s : ByteStream) (ctx : SHA256Ctx) (k : Nat) (e : String)
    (h : s.read 4096 = Except.error e) :
    computeHashAux s ctx k = ((Except.error e, s), k + 1) := by
  rw [computeHashAux]
  split
  · rename_i e' heq
    rw [h] at heq
    simp only [Except.error.injEq] at heq
    rw [heq]
  · rename_i c t heq
    rw [h] at heq
    exact Except.noConfusion heq

theorem computeHashAux_eq_empty (s : ByteStream) (ctx : SHA256Ctx) (k : Nat) (t : ByteStream)
    (h : s.read 4096 = Except.ok ([], t)) :
    computeHashAux s ctx k = ((Except.ok ctx.hexdigest, t), k + 1) := by
  rw [computeHashAux]
  split
  · rename_i e heq
    rw [h] at heq
    exact Except.noConfusion heq
  · rename_i c t' heq
    rw [h] at heq
    simp only [Except.ok.injEq, Prod.mk.injEq] at heq
    obtain ⟨h1, h2⟩ := heq
    subst h2
    simp [← h1]

theorem computeHashAux_eq_step (s : ByteStream) (ctx : SHA256Ctx) (k : Nat) (c : List Nat)
    (t : ByteStream) (h : s.read 4096 = Except.ok (c, t)) (hc : c ≠ []) :
    computeHashAux s ctx k = computeHashAux t (ctx.update c) (k + 1) := by
  rw [computeHashAux]
  split
  · rename_i e heq
    rw [h] at heq
    exact Except.noConfusion heq
  · rename_i c' t' heq
    rw [h] at heq
    simp only [Except.ok.injEq, Prod.mk.injEq] at heq
    obtain ⟨h1, h2⟩ := heq
    subst h2
    subst h1
    simp [hc]

/-! ### Characterization of the loop on a healthy stream -/

theorem chunk_ne_nil (data : List Nat) (pos : Nat) (h : pos < data.length) :
    (data.drop pos).take 4096 ≠ [] := by
  have hl : 0 < ((data.drop pos).take 4096).length := by
    simp only [List.length_take, List.length_drop]
    omega
  intro hz
  rw [hz] at hl
  simp at hl

theorem drop_reassemble (data : List Nat) (pos : Nat) :
    (data.drop pos).take 4096 ++ data.drop (pos + ((data.drop pos).take 4096).length) =
      data.drop pos := by
  rw [← List.drop_drop]
  rcases Nat.le_total 4096 (data.drop pos).length with hle | hle
  · rw [List.length_take, Nat.min_eq_left hle, List.take_append_drop]
  · rw [List.take_of_length_le hle, List.drop_length, List.append_nil]

theorem computeHashAux_none_exhausted (data : List Nat) (pos : Nat) (ctx : SHA256Ctx)
    (k : Nat) (hp : data.length ≤ pos) :
    computeHashAux ⟨data, pos, none⟩ ctx k =
      ((Except.ok (sha256Hex ctx.fed), ⟨data, pos, none⟩), k + 1) := by
  have hdrop : data.drop pos = [] := List.drop_eq_nil_of_le hp
  rw [computeHashAux_eq_empty _ _ _ ⟨data, pos, none⟩
    (by rw [read_none, hdrop]; simp)]
  rfl

theorem computeHashAux_none_aux :
    ∀ (n : Nat) (data : List Nat) (pos : Nat), data.length - pos ≤ n →
    ∀ (ctx : SHA256Ctx) (k : Nat),
    computeHashAux ⟨data, pos, none⟩ ctx k =
      ((Except.ok (sha256Hex (ctx.fed ++ data.drop pos)),
        ⟨data, max pos data.length, none⟩),
       k + ((data.length - pos + 4095) / 4096 + 1)) := by
  intro n
  induction n with
  | zero =>
    intro data pos hle ctx k
    have hp : data.length ≤ pos := by omega
    have h2 : (data.length - pos + 4095) / 4096 = 0 := by
      have h3 : data.length - pos = 0 := by omega
      rw [h3]
    simp [computeHashAux_none_exhausted data pos ctx k hp,
      List.drop_eq_nil_of_le hp, Nat.max_eq_left hp, h2]
  | succ n ih =>
    intro data pos hle ctx k
    rcases le_or_lt data.length pos with hp | hp
    · have h2 : (data.length - pos + 4095) / 4096 = 0 := by
        have h3 : data.length - pos = 0 := by omega
        rw [h3]
      simp [computeHashAux_none_exhausted data pos ctx k hp,
        List.drop_eq_nil_of_le hp, Nat.max_eq_left hp, h2]
    · have hcne := chunk_ne_nil data pos hp
      rw [computeHashAux_eq_step _ _ _ _ _ (read_none data pos 4096) hcne]
      have hclen : ((data.drop pos).take 4096).length = min 4096 (data.length - pos) := by
        simp [List.length_take, List.length_drop]
      rw [ih data (pos + ((data.drop pos).take 4096).length) (by omega) _ (k + 1)]
      have hfed : (ctx.update ((data.drop pos).take 4096)).fed ++
          data.drop (pos + ((data.drop pos).take 4096).length) =
          ctx.fed ++ data.drop pos := by
        rw [SHA256Ctx.update, List.append_assoc, drop_reassemble]
      rw [hfed]
      have hmax : max (pos + ((data.drop pos).take 4096).length) data.length =
          max pos data.length := by omega
      have hcount : (k + 1) +
          ((data.length - (pos + ((data.drop pos).take 4096).length) + 4095) / 4096 + 1) =
          k + ((data.length - pos + 4095) / 4096 + 1) := by omega
      rw [hmax, hcount]

theorem computeHashAux_none (data : List Nat) (pos : Nat) (ctx : SHA256Ctx) (k : Nat) :
    computeHashAux ⟨data, pos, none⟩ ctx k =
      ((Except.ok (sha256Hex (ctx.fed ++ data.drop pos)),
        ⟨data, max pos data.length, none⟩),
       k + ((data.length - pos + 4095) / 4096 + 1)) :=
  computeHashAux_none_aux (data.length - pos) data pos (Nat.le_refl _) ctx k

/-! ### Digest format -/

/-- The sixteen lowercase hex digits. -/
def lowerHexDigits : List Char := ("0123456789abcdef").data

/-- `c` is an ASCII lowercase hexadecimal digit. -/
def isLowerHexDigit (c : Char) : Prop := c ∈ lowerHexDigits

instance (c : Char) : Decidable (isLowerHexDigit c) := by
  unfold isLowerHexDigit
  infer_instance

/-- `s` is a well-formed digest: exactly 64 characters, each a lowercase hex
digit (in particular no prefix and ASCII only). -/
def isHex64 (s : String) : Prop :=
  s.length = 64 ∧ ∀ c ∈ s.data, isLowerHexDigit c

theorem toHexAux_length (k : Nat) : ∀ w, (toHexAux k w).length = k := by
  induction k with
  | zero => intro w; rfl
  | succ k ih =>
    intro w
    simp [toHexAux, ih]

theorem hexDigitChar_mem (n : Nat) (h : n < 16) : isLowerHexDigit (hexDigitChar n) := by
  interval_cases n <;> decide

theorem toHexAux_mem (k : Nat) : ∀ w c, c ∈ toHexAux k w → isLowerHexDigit c := by
  induction k with
  | zero =>
    intro w c hc
    exact absurd hc (List.not_mem_nil c)
  | succ k ih =>
    intro w c hc
    rw [toHexAux, List.mem_append] at hc
    rcases hc with hc | hc
    · exact ih _ c hc
    · rw [List.mem_singleton] at hc
      subst hc
      exact hexDigitChar_mem _ (Nat.mod_lt _ (by omega))

theorem sha256Hex_isHex64 (msg : List Nat) : isHex64 (sha256Hex msg) := by
  unfold sha256Hex isHex64
  constructor
  · simp [String.length_mk, List.length_append, toHexAux_length]
  · intro c hc
    simp only [String] at hc
    simp only [List.mem_append] at hc
    rcases hc with ((((((hc | hc) | hc) | hc) | hc) | hc) | hc) | hc <;>
      exact toHexAux_mem _ _ _ hc

/-- `hash_bytes` is the plain SHA256 hex digest. -/
theorem hash_bytes_eq (data : List Nat) : hash_bytes data = sha256Hex data := by
  simp [hash_bytes, SHA256Ctx.update, SHA256Ctx.hexdigest, SHA256Ctx.init]

/-! ### Frame and shape lemmas for the loop on arbitrary streams -/

theorem computeHashAux_frame :
    ∀ (n : Nat) (s : ByteStream), s.data.length - s.pos ≤ n → ∀ (ctx : SHA256Ctx) (k : Nat),
    (computeHashAux s ctx k).1.2.data = s.data ∧
    (computeHashAux s ctx k).1.2.failAt = s.failAt := by
  intro n
  induction n with
  | zero =>
    intro s hle ctx k
    rcases h : s.read 4096 with e | ⟨c, t⟩
    · rw [computeHashAux_eq_error _ _ _ _ h]
      exact ⟨rfl, rfl⟩
    · obtain ⟨h1, h2⟩ := read_ok_spec s 4096 c t h
      have hc : c = [] := by
        rw [h1, List.drop_eq_nil_of_le (by omega), List.take_nil]
      subst hc
      rw [computeHashAux_eq_empty _ _ _ _ (by rw [h])]
      rw [h2]
      exact ⟨rfl, rfl⟩
  | succ n ih =>
    intro s hle ctx k
    rcases h : s.read 4096 with e | ⟨c, t⟩
    · rw [computeHashAux_eq_error _ _ _ _ h]
      exact ⟨rfl, rfl⟩
    · obtain ⟨h1, h2⟩ := read_ok_spec s 4096 c t h
      by_cases hc : c = []
      · subst hc
        rw [computeHashAux_eq_empty _ _ _ _ (by rw [h])]
        rw [h2]
        exact ⟨rfl, rfl⟩
      · rw [computeHashAux_eq_step _ _ _ _ _ h hc]
        have hcpos : 0 < c.length := List.length_pos.mpr hc
        have hcle : c.length ≤ s.data.length - s.pos := by
          rw [h1]
          simp [List.length_take, List.length_drop]
        have htl : t.data.length = s.data.length := by rw [h2]
        have htp : t.pos = s.pos + c.length := by rw [h2]
        have hrec := ih t (by omega) (ctx.update c) (k + 1)
        rw [hrec.1, hrec.2, h2]
        exact ⟨rfl, rfl⟩

theorem computeHashAux_ok_form :
    ∀ (n : Nat) (s : ByteStream), s.data.length - s.pos ≤ n → ∀ (ctx : SHA256Ctx) (k : Nat)
    (d : String), (computeHashAux s ctx k).1.1 = Except.ok d → ∃ m, d = sha256Hex m := by
  intro n
  induction n with
  | zero =>
    intro s hle ctx k d hd
    rcases h : s.read 4096 with e | ⟨c, t⟩
    · rw [computeHashAux_eq_error _ _ _ _ h] at hd
      exact Except.noConfusion hd
    · obtain ⟨h1, h2⟩ := read_ok_spec s 4096 c t h
      have hc : c = [] := by
        rw [h1, List.drop_eq_nil_of_le (by omega), List.take_nil]
      subst hc
      rw [computeHashAux_eq_empty _ _ _ _ (by rw [h])] at hd
      simp only [Except.ok.injEq] at hd
      exact ⟨ctx.fed, hd.symm⟩
  | succ n ih =>
    intro s hle ctx k d hd
    rcases h : s.read 4096 with e | ⟨c, t⟩
    · rw [computeHashAux_eq_error _ _ _ _ h] at hd
      exact Except.noConfusion hd
    · obtain ⟨h1, h2⟩ := read_ok_spec s 4096 c t h
      by_cases hc : c = []
      · subst hc
        rw [computeHashAux_eq_empty _ _ _ _ (by rw [h])] at hd
        simp only [Except.ok.injEq] at hd
        exact ⟨ctx.fed, hd.symm⟩
      · rw [computeHashAux_eq_step _ _ _ _ _ h hc] at hd
        have hcpos : 0 < c.length := List.length_pos.mpr hc
        have hcle : c.length ≤ s.data.length - s.pos := by
          rw [h1]
          simp [List.length_take, List.length_drop]
        have htl : t.data.length = s.data.length := by rw [h2]
        have htp : t.pos = s.pos + c.length := by rw [h2]
        exact ih t (by omega) (ctx.update c) (k + 1) d hd

/-- The stream object handed back by `hash_stream` coincides with the one
handed in: content and fault state are untouched by reading, and the final
`seek` restores the saved position. -/
theorem hash_stream_snd (s : ByteStream) : (hash_stream s).2 = s := by
  obtain ⟨d, p, f⟩ := s
  have hf := computeHashAux_frame (d.length) ⟨d, 0, f⟩ (by simp) SHA256Ctx.init 0
  have hrfl : (hash_stream ⟨d, p, f⟩).2 =
      ByteStream.mk ((computeHashAux ⟨d, 0, f⟩ SHA256Ctx.init 0).1.2.data) p
        ((computeHashAux ⟨d, 0, f⟩ SHA256Ctx.init 0).1.2.failAt) := rfl
  rw [hrfl, hf.1, hf.2]

/-! ### The chunk-queue form of the loop -/

theorem computeHashChunks_join (chunks : List (List Nat)) :
    ∀ ctx : SHA256Ctx, (∀ c ∈ chunks, c ≠ []) →
    computeHashChunks ctx chunks = sha256Hex (ctx.fed ++ chunks.flatten) := by
  induction chunks with
  | nil =>
    intro ctx _
    simp [computeHashChunks, SHA256Ctx.hexdigest]
  | cons c rest ih =>
    intro ctx hne
    have hc : c ≠ [] := hne c (List.mem_cons_self c rest)
    rw [computeHashChunks, if_neg hc, ih (ctx.update c) (fun x hx => hne x (List.mem_cons_of_mem c hx))]
    simp [SHA256Ctx.update, List.flatten]

/-- A successfully opened file is hashed to the digest of its contents. -/
theorem hash_file_found (fs : String → OpenOutcome) (path : String) (C : List Nat)
    (h : fs path = OpenOutcome.found C) :
    hash_file fs path = Except.ok (sha256Hex C) := by
  unfold hash_file
  rw [h]
  have hv : (compute_hash ⟨C, 0, none⟩).1 = Except.ok (sha256Hex C) := by
    unfold compute_hash
    rw [computeHashAux_none]
    simp [SHA256Ctx.init]
  show (match (compute_hash ⟨C, 0, none⟩).1 with
        | Except.ok d => Except.ok d
        | Except.error m => Except.error (IOErr.ioFailure m)) = Except.ok (sha256Hex C)
  rw [hv]

set_option maxRecDepth 100000 in
/-- The SHA256 digest of the empty input, by kernel evaluation. -/
theorem sha256Hex_nil_eq :
    sha256Hex [] = "e3b0c44298fc1c149afbf4c8996fb92427ae41e4649b934ca495991b7852b855" := by
  rfl

/-! ### The claims -/

/-- C1: Chunk-boundary independence. For every byte sequence `B` and every
decomposition of `B` into successive chunks (each nonempty, since a
zero-length read is the end-of-source sentinel, and each at most 4096 bytes),
feeding those chunks to the chunked digest loop of `_compute_hash` yields the
same digest as `hash_bytes B`; the digest does not depend on where the chunk
boundaries fall. -/
theorem chunked_digest_chunk_independent (B : List Nat) (chunks : List (List Nat))
    (hne : ∀ c ∈ chunks, c ≠ [])
    (_hsize : ∀ c ∈ chunks, c.length ≤ 4096)
    (hflat : chunks.flatten = B) :
    computeHashChunks SHA256Ctx.init chunks = hash_bytes B := by
  rw [computeHashChunks_join chunks SHA256Ctx.init hne, hash_bytes_eq, ← hflat]
  simp [SHA256Ctx.init]

theorem chunked_digest_chunk_independent_witness :
    computeHashChunks SHA256Ctx.init [[104, 101], [108]] = hash_bytes [104, 101, 108] :=
  chunked_digest_chunk_independent [104, 101, 108] [[104, 101], [108]]
    (by decide) (by decide) (by decide)

/-- C2: Position restoration. For every stream whose position at call entry
is `P`, after `hash_stream` returns — whether the first component is a digest
or a propagated read failure (the fault state of the stream is arbitrary) —
the stream's position equals `P`: the `finally` restoration runs on every
exit path. -/
theorem hash_stream_restores_position (s : ByteStream) :
    ((hash_stream s).2).tell = s.tell := by
  rw [hash_stream_snd s]

/-- C3: For every seekable healthy stream, `hash_stream` returns the digest
of the entire content from position 0 to the end, whatever the starting
position (the right-hand side does not mention `s.pos`, so the digest is
independent of it). -/
theorem hash_stream_digest_full_content (s : ByteStream) (hf : s.failAt = none) :
    (hash_stream s).1 = Except.ok (hash_bytes s.data) := by
  obtain ⟨d, p, f⟩ := s
  have hf' : f = none := hf
  subst hf'
  have h1 : (hash_stream ⟨d, p, none⟩).1 =
      (computeHashAux ⟨d, 0, none⟩ SHA256Ctx.init 0).1.1 := rfl
  rw [h1, computeHashAux_none]
  simp [SHA256Ctx.init, hash_bytes_eq]

theorem hash_stream_digest_full_content_witness :
    (hash_stream ⟨[104, 101, 108], 2, none⟩).1 = Except.ok (hash_bytes [104, 101, 108]) :=
  hash_stream_digest_full_content ⟨[104, 101, 108], 2, none⟩ rfl

/-- C4: Cross-method consistency. Hashing a readable file whose contents are
exactly `C` via `hash_file` returns the same digest as `hash_bytes C`. -/
theorem hash_file_matches_hash_bytes (fs : String → OpenOutcome) (path : String)
    (C : List Nat) (h : fs path = OpenOutcome.found C) :
    hash_file fs path = Except.ok (hash_bytes C) := by
  rw [hash_file_found fs path C h, hash_bytes_eq]

theorem hash_file_matches_hash_bytes_witness :
    hash_file (fun _ => OpenOutcome.found [104, 101, 108]) "data.bin" =
      Except.ok (hash_bytes [104, 101, 108]) :=
  hash_file_matches_hash_bytes (fun _ => OpenOutcome.found [104, 101, 108])
    "data.bin" [104, 101, 108] rfl

/-- C5: `hash_file` fails with the `NotFound` kind exactly when opening the
path reports that no readable file is there; in that case the message
contains the offending path; and any other I/O failure (permission denied,
device error) propagates as the generic I/O failure kind, untranslated and
not swallowed. -/
theorem hash_file_error_taxonomy (fs : String → OpenOutcome) (path : String) :
    ((∃ m, hash_file fs path = Except.error (IOErr.notFound m)) ↔
      fs path = OpenOutcome.fileNotFound) ∧
    (∀ m, hash_file fs path = Except.error (IOErr.notFound m) →
      ∃ pre post, m.data = pre ++ path.data ++ post) ∧
    (∀ e, fs path = OpenOutcome.otherIOError e →
      hash_file fs path = Except.error (IOErr.ioFailure e)) := by
  refine ⟨⟨?_, ?_⟩, ?_, ?_⟩
  · rintro ⟨m, hm⟩
    rcases hfs : fs path with C | _ | e
    · rw [hash_file_found fs path C hfs] at hm
      exact Except.noConfusion hm
    · rfl
    · have h3 : hash_file fs path = Except.error (IOErr.ioFailure e) := by
        unfold hash_file
        rw [hfs]
      rw [h3] at hm
      simp at hm
  · intro hfs
    refine ⟨"File not found: " ++ path, ?_⟩
    unfold hash_file
    rw [hfs]
  · intro m hm
    rcases hfs : fs path with C | _ | e
    · rw [hash_file_found fs path C hfs] at hm
      exact Except.noConfusion hm
    · have h2 : hash_file fs path =
          Except.error (IOErr.notFound ("File not found: " ++ path)) := by
        unfold hash_file
        rw [hfs]
      rw [h2] at hm
      simp only [Except.error.injEq, IOErr.notFound.injEq] at hm
      subst hm
      refine ⟨("File not found: ").data, [], ?_⟩
      simp
    · have h3 : hash_file fs path = Except.error (IOErr.ioFailure e) := by
        unfold hash_file
        rw [hfs]
      rw [h3] at hm
      simp at hm
  · intro e hfs
    unfold hash_file
    rw [hfs]

theorem hash_file_error_taxonomy_witness :
    (∃ m, hash_file (fun _ => OpenOutcome.fileNotFound) "missing.txt" =
        Except.error (IOErr.notFound m)) ∧
    (∃ pre post, ("File not found: missing.txt").data =
        pre ++ ("missing.txt").data ++ post) ∧
    hash_file (fun _ => OpenOutcome.otherIOError "permission denied") "locked.txt" =
      Except.error (IOErr.ioFailure "permission denied") := by
  refine ⟨?_, ?_, ?_⟩
  · exact (hash_file_error_taxonomy (fun _ => OpenOutcome.fileNotFound) "missing.txt").1.mpr rfl
  · exact (hash_file_error_taxonomy (fun _ => OpenOutcome.fileNotFound) "missing.txt").2.1
      "File not found: missing.txt" (by rfl)
  · exact (hash_file_error_taxonomy (fun _ => OpenOutcome.otherIOError "permission denied")
      "locked.txt").2.2 "permission denied" rfl

/-- C6: Totality of `hash_bytes`. For every byte buffer, of any length
including zero, `hash_bytes` returns a digest (a 64-character string); it is
a total function with no error channel. -/
theorem hash_bytes_never_fails (data : List Nat) :
    ∃ d : String, hash_bytes data = d ∧ d.length = 64 :=
  ⟨hash_bytes data, rfl, by rw [hash_bytes_eq]; exact (sha256Hex_isHex64 data).1⟩

/-- C7: Zero-length input yields the fixed SHA256 empty-input digest, both
for `hash_bytes` on the empty buffer and for the chunked loop of
`_compute_hash` on an empty or already-exhausted healthy source. -/
theorem empty_input_fixed_digest :
    hash_bytes [] = "e3b0c44298fc1c149afbf4c8996fb92427ae41e4649b934ca495991b7852b855" ∧
    (∀ s : ByteStream, s.failAt = none → s.data.length ≤ s.pos →
      (compute_hash s).1 =
        Except.ok "e3b0c44298fc1c149afbf4c8996fb92427ae41e4649b934ca495991b7852b855") := by
  constructor
  · rw [hash_bytes_eq, sha256Hex_nil_eq]
  · intro s hf hp
    obtain ⟨d, p, f⟩ := s
    have hf' : f = none := hf
    subst hf'
    have h1 : (compute_hash ⟨d, p, none⟩).1 =
        (computeHashAux ⟨d, p, none⟩ SHA256Ctx.init 0).1.1 := rfl
    rw [h1, computeHashAux_none_exhausted d p SHA256Ctx.init 0 hp]
    simp [SHA256Ctx.init, sha256Hex_nil_eq]

theorem empty_input_fixed_digest_witness :
    (compute_hash ⟨[104], 2, none⟩).1 =
      Except.ok "e3b0c44298fc1c149afbf4c8996fb92427ae41e4649b934ca495991b7852b855" :=
  empty_input_fixed_digest.2 ⟨[104], 2, none⟩ rfl (by decide)

/-- C8: Digest format invariant. Every digest returned by any of the three
entry points — `hash_bytes` on any buffer, `hash_stream` on any stream, and
`hash_file` on any path — is a string of exactly 64 characters, each an ASCII
lowercase hexadecimal digit, with no prefix. -/
theorem digest_format :
    (∀ data : List Nat, isHex64 (hash_bytes data)) ∧
    (∀ (s : ByteStream) (d : String), (hash_stream s).1 = Except.ok d → isHex64 d) ∧
    (∀ (fs : String → OpenOutcome) (path : String) (d : String),
      hash_file fs path = Except.ok d → isHex64 d) := by
  refine ⟨?_, ?_, ?_⟩
  · intro data
    rw [hash_bytes_eq]
    exact sha256Hex_isHex64 data
  · intro s d hd
    have h1 : (hash_stream s).1 =
        (computeHashAux (s.seek 0) SHA256Ctx.init 0).1.1 := rfl
    rw [h1] at hd
    obtain ⟨m, rfl⟩ := computeHashAux_ok_form ((s.seek 0).data.length - (s.seek 0).pos)
      (s.seek 0) (Nat.le_refl _) SHA256Ctx.init 0 d hd
    exact sha256Hex_isHex64 m
  · intro fs path d hd
    rcases hfs : fs path with C | _ | e
    · rw [hash_file_found fs path C hfs] at hd
      simp only [Except.ok.injEq] at hd
      subst hd
      exact sha256Hex_isHex64 C
    · have h2 : hash_file fs path =
          Except.error (IOErr.notFound ("File not found: " ++ path)) := by
        unfold hash_file
        rw [hfs]
      rw [h2] at hd
      exact Except.noConfusion hd
    · have h3 : hash_file fs path = Except.error (IOErr.ioFailure e) := by
        unfold hash_file
        rw [hfs]
      rw [h3] at hd
      exact Except.noConfusion hd

theorem digest_format_witness :
    isHex64 (hash_bytes [104, 105]) ∧ isHex64 (sha256Hex []) := by
  refine ⟨digest_format.1 [104, 105], ?_⟩
  refine digest_format.2.1 ⟨[], 0, none⟩ (sha256Hex []) ?_
  show (computeHashAux ⟨[], 0, none⟩ SHA256Ctx.init 0).1.1 = Except.ok (sha256Hex [])
  rw [computeHashAux_none_exhausted [] 0 SHA256Ctx.init 0 (Nat.le_refl 0)]
  rfl

/-- C9: Idempotence of `hash_stream`. Calling it twice in immediate
succession on a stream returns the same result from both calls (same digest,
or the same propagated failure), and the stream's position after the second
call equals its position after the first call. -/
theorem hash_stream_idempotent (s : ByteStream) :
    (hash_stream ((hash_stream s).2)).1 = (hash_stream s).1 ∧
    (hash_stream ((hash_stream s).2)).2.tell = (hash_stream s).2.tell := by
  rw [hash_stream_snd s]
  exact ⟨rfl, rfl⟩

/-- C10: The chunked loop of `_compute_hash` terminates on every finite
healthy source: reading `n` bytes from position 0 performs at most
`⌈n / 4096⌉ + 1` reads (the ceiling is `(n + 4095) / 4096`), the final read
being the empty one that stops the loop; in particular the loop is a total
function of the source's contents. -/
theorem compute_hash_read_count (data : List Nat) (ctx : SHA256Ctx) :
    (computeHashAux ⟨data, 0, none⟩ ctx 0).2 ≤ (data.length + 4095) / 4096 + 1 := by
  rw [computeHashAux_none]
  simp
